import Mathlib

/-!
Shallow embedding of `state.go` from the sacura repository: the
`StateManager` that records sent/received cloud events per partition key
and produces diffs and reports.

Modelling conventions:
* Go maps `map[string][]string` become association lists
  `List (String × List String)` with unique keys; map iteration order is
  the list order (Go map iteration order is unspecified; the claims below
  only concern per-key values and aggregate counts, which are
  order-independent).
* Go nil slices and empty slices are both modelled as `[]`.
* `sort.Strings` sorts a slice ascending in place; we model the resulting
  list with `List.insertionSort (· ≤ ·)` and model the in-place mutation
  explicitly: `Diff` and `GenerateReport` return the post-state alongside
  their result.
* The type assertion `v.(string)` panics when the attribute is not a
  string; insertion therefore returns an `Option`.
-/

namespace Sacura

/-- A cloud-event extension attribute value: a string, or a value of any
other dynamic type (on which the `v.(string)` type assertion panics). -/
inductive AttrValue where
  | str (s : String)
  | other
  deriving DecidableEq

/-- The part of a cloud event the code reads: `e.ID()` and
`e.Extensions()` (a string-keyed attribute map, modelled as an
association list). -/
structure Event where
  id : String
  extensions : List (String × AttrValue)
  deriving DecidableEq

/-- Metrics are opaque to the state manager and passed through untouched;
we model them as a wrapped number. -/
structure Metrics where
  val : Nat
  deriving DecidableEq

/-- `StateManagerConfig`: the `Ordered` flag (the `OrderedConfig`
sub-configuration is opaque and never read by the code under study). -/
structure StateManagerConfig where
  Ordered : Bool
  deriving DecidableEq

/-- `unknownPartitionKey` constant. -/
def unknownPartitionKey : String := "unknown"

/-- A ledger: the Go `map[string][]string`, as an association list with
unique keys in insertion order. -/
abbrev Ledger := List (String × List String)

/-- Go map lookup `store[k]`. -/
def Ledger.find (l : Ledger) (k : String) : Option (List String) :=
  (l.find? (fun p => p.1 = k)).map Prod.snd

/-- Whether the key is present (`_, ok := store[k]`). -/
def Ledger.hasKey (l : Ledger) (k : String) : Bool :=
  l.any (fun p => p.1 = k)

/-- The two-line mutation in `insert`: create the entry on first use,
then `store[pk] = append(store[pk], id)`. -/
def Ledger.appendAt (l : Ledger) (k : String) (id : String) : Ledger :=
  if l.hasKey k then
    l.map (fun p => if p.1 = k then (p.1, p.2 ++ [id]) else p)
  else
    l ++ [(k, [id])]

/-- The manager state: both ledgers, the configuration, and the
terminated flag plus metrics snapshot.  The `sync.RWMutex` is a runtime
synchronisation device with no sequential content and is not modelled. -/
structure StateManager where
  received : Ledger
  sent : Ledger
  config : StateManagerConfig
  terminated : Bool
  metrics : Metrics
  deriving DecidableEq

/-- `NewStateManager`. -/
def NewStateManager (config : StateManagerConfig) : StateManager :=
  { received := [], sent := [], config := config,
    terminated := false, metrics := ⟨0⟩ }

/-- `removeDuplicates`, generalised over the seen-set `t` (modelled as
the list of keys of the Go set `map[string]struct{}`). -/
def removeDuplicatesAux : List String → List String → List String × List String
  | _, [] => ([], [])
  | seen, v :: rest =>
    let p := removeDuplicatesAux (v :: seen) rest
    if seen.contains v then (p.1, v :: p.2) else (v :: p.1, p.2)

/-- `removeDuplicates`: splits a sequence of IDs into first occurrences
and subsequent (duplicate) occurrences, both in original order. -/
def removeDuplicates (a : List String) : List String × List String :=
  removeDuplicatesAux [] a

/-- Ascending lexicographic order on strings (Go's `<` on strings),
stated over the character lists so that it evaluates by `decide`. -/
def strLE (a b : String) : Prop :=
  a = b ∨ List.Lex (· < ·) a.data b.data

instance strLE.decRel : DecidableRel strLE := fun _ _ =>
  inferInstanceAs (Decidable (_ ∨ _))

/-- `sort.Strings`: ascending lexicographic sort. Modelled with
insertion sort (the observable contract of `sort.Strings` is the sorted
arrangement; for strings, equal elements are identical, so any correct
sort yields the same list). -/
def sortStrings (l : List String) : List String :=
  l.insertionSort strLE

/-- Model of the external go-cmp library call `cmp.Diff(want, got)` on
string slices with default options: returns the empty string exactly
when the two values are equal, and a non-empty human-readable report
otherwise. -/
def cmpDiff (want got : List String) : String :=
  if want = got then "" else "values differ"

/-- Model of `sets.NewString(a...).Difference(sets.NewString(b...)).List()`
from k8s `sets.String`: the sorted list of distinct elements of `a` that
do not occur in `b`. -/
def setDifferenceList (a b : List String) : List String :=
  sortStrings ((a.filter (fun x => ¬ b.contains x)).dedup)

/-- The partition-key computation at the top of `insert`: the sentinel
unless ordered mode is on and a `partitionkey` attribute is present; the
`v.(string)` assertion panics (`none`) on a non-string attribute. -/
def partitionKeyOf (e : Event) (config : StateManagerConfig) : Option String :=
  if config.Ordered then
    match e.extensions.find? (fun p => p.1 = "partitionkey") with
    | some (_, AttrValue.str s) => some s
    | some (_, AttrValue.other) => none
    | none => some unknownPartitionKey
  else
    some unknownPartitionKey

/-- `insert`: compute the partition key and append the event ID to the
store's sequence for that key, creating it on first use; `none` models
the panic on a malformed attribute. -/
def insert (e : Event) (store : Ledger) (config : StateManagerConfig) :
    Option Ledger :=
  match partitionKeyOf e config with
  | none => none
  | some pk => some (store.appendAt pk e.id)

/-- The per-event effect of the `ReadSent` ingestion loop. -/
def recordSent (s : StateManager) (e : Event) : Option StateManager :=
  (insert e s.sent s.config).map (fun l => { s with sent := l })

/-- The per-event effect of the `ReadReceived` ingestion loop. -/
def recordReceived (s : StateManager) (e : Event) : Option StateManager :=
  (insert e s.received s.config).map (fun l => { s with received := l })

/-- `ReceivedCount`: sum of the lengths of all received sequences. -/
def ReceivedCount (s : StateManager) : Nat :=
  s.received.foldl (fun count p => count + p.2.length) 0

/-- The deduplicated received data for a sent key inside `Diff` /
`GenerateReport`: `removeDuplicates(s.received[k])` when the key is
present, `(nil, nil)` otherwise. -/
def dedupReceivedFor (s : StateManager) (k : String) :
    List String × List String :=
  match Ledger.find s.received k with
  | some w => removeDuplicates w
  | none => ([], [])

/-- `sort.Strings` applied only when not in ordered mode. -/
def modeSort (config : StateManagerConfig) (l : List String) : List String :=
  if config.Ordered then l else sortStrings l

/-- One iteration of the `Diff` loop body: the Bool accumulates
`hasDiff`, the String accumulates `fullDiff`. -/
def diffStep (s : StateManager) (acc : Bool × String)
    (p : String × List String) : Bool × String :=
  let sent := modeSort s.config p.2
  let received := modeSort s.config (dedupReceivedFor s p.1).1
  let d := cmpDiff received sent
  (acc.1 || !(d == ""),
   acc.2 ++ "partitionkey: '" ++ p.1 ++ "' (-want, +got)\n" ++ d)

/-- The sent ledger after a read operation: in unordered mode
`sort.Strings(sent)` sorts each per-partition sent slice in place
(aliasing the map's slice), in ordered mode nothing is touched. -/
def sentAfterSort (s : StateManager) : Ledger :=
  if s.config.Ordered then s.sent
  else s.sent.map (fun p => (p.1, sortStrings p.2))

/-- `Diff`: the returned report string together with the post-state
(which differs from the pre-state exactly by the in-place sorts). -/
def Diff (s : StateManager) : String × StateManager :=
  let folded := s.sent.foldl (diffStep s) (false, "Diff by partition key\n")
  (if folded.1 then folded.2 else "", { s with sent := sentAfterSort s })

/-- The `Report` struct (fields as constructed by `GenerateReport`). -/
structure Report where
  LostCount : Nat
  Metrics : Metrics
  LostEventsByPartitionKey : List (String × List String)
  DuplicateEventsByPartitionKey : List (String × List String)
  ReceivedEventsByPartitionKey : List (String × List String)
  Terminated : Bool
  DuplicateCount : Nat
  ReceivedCount : Nat
  deriving DecidableEq

/-- One iteration of the `GenerateReport` loop body.  Note the Go
scoping subtlety at `r.ReceivedEventsByPartitionKey[k] = v`: the inner
`v` from `if v, ok := s.received[k]` is out of scope there, so `v` is
the *outer* range variable, i.e. the sent slice for `k` (already sorted
in place when not in ordered mode). -/
def reportStep (s : StateManager) (r : Report)
    (p : String × List String) : Report :=
  let sent := modeSort s.config p.2
  let rd := dedupReceivedFor s p.1
  let received := modeSort s.config rd.1
  let duplicates := modeSort s.config rd.2
  let lost := setDifferenceList sent received
  { r with
    LostEventsByPartitionKey := r.LostEventsByPartitionKey ++ [(p.1, lost)],
    LostCount := r.LostCount + lost.length,
    DuplicateEventsByPartitionKey :=
      r.DuplicateEventsByPartitionKey ++ [(p.1, duplicates)],
    DuplicateCount := r.DuplicateCount + duplicates.length,
    ReceivedEventsByPartitionKey :=
      r.ReceivedEventsByPartitionKey ++ [(p.1, sent)],
    ReceivedCount := r.ReceivedCount + sent.length }

/-- `GenerateReport`: the report and the post-state (the in-place sorts
of the sent slices are visible in the post-state in unordered mode). -/
def GenerateReport (s : StateManager) : Report × StateManager :=
  let init : Report :=
    { LostCount := 0, Metrics := s.metrics,
      LostEventsByPartitionKey := [],
      DuplicateEventsByPartitionKey := [],
      ReceivedEventsByPartitionKey := [],
      Terminated := s.terminated,
      DuplicateCount := 0, ReceivedCount := 0 }
  (s.sent.foldl (reportStep s) init, { s with sent := sentAfterSort s })

/-- `Terminated(metrics)`: the one-way transition to the terminated
state, capturing the final metrics. -/
def Terminated (s : StateManager) (metrics : Metrics) : StateManager :=
  { s with terminated := true, metrics := metrics }

/-- The operations a caller can perform on a live manager. -/
inductive Op where
  | sent (e : Event)
  | recv (e : Event)
  | diff
  | report
  | markTerminated (m : Metrics)

/-- Apply one operation; `none` models a panic inside `insert`. -/
def applyOp (s : StateManager) : Op → Option StateManager
  | Op.sent e => recordSent s e
  | Op.recv e => recordReceived s e
  | Op.diff => some (Diff s).2
  | Op.report => some (GenerateReport s).2
  | Op.markTerminated m => some (Terminated s m)

/-- Apply a sequence of operations left to right. -/
def applyOps (s : StateManager) : List Op → Option StateManager
  | [] => some s
  | op :: ops =>
    match applyOp s op with
    | none => none
    | some s₁ => applyOps s₁ ops

/-- Whether an operation is an insertion (issued by an ingestion loop). -/
def Op.isInsertion : Op → Bool
  | Op.sent _ => true
  | Op.recv _ => true
  | _ => false

/-! ### Order facts about `strLE` and `sortStrings` -/

theorem strLE_iff_le (a b : String) : strLE a b ↔ a ≤ b := by
  rw [le_iff_lt_or_eq, String.lt_iff_toList_lt]
  unfold strLE
  constructor
  · rintro (rfl | h)
    · exact Or.inr rfl
    · exact Or.inl h
  · rintro (h | rfl)
    · exact Or.inr h
    · exact Or.inl rfl

instance : IsTotal String strLE :=
  ⟨fun a b => (le_total a b).imp (strLE_iff_le a b).mpr (strLE_iff_le b a).mpr⟩

instance : IsTrans String strLE :=
  ⟨fun a b c h₁ h₂ => (strLE_iff_le a c).mpr
    (le_trans ((strLE_iff_le a b).mp h₁) ((strLE_iff_le b c).mp h₂))⟩

instance : IsAntisymm String strLE :=
  ⟨fun a b h₁ h₂ =>
    le_antisymm ((strLE_iff_le a b).mp h₁) ((strLE_iff_le b a).mp h₂)⟩

theorem sortStrings_sorted (l : List String) :
    (sortStrings l).Sorted strLE :=
  List.sorted_insertionSort strLE l

theorem sortStrings_sorted_le (l : List String) :
    (sortStrings l).Sorted (· ≤ ·) :=
  (sortStrings_sorted l).imp fun h => (strLE_iff_le _ _).mp h

theorem sortStrings_perm (l : List String) : List.Perm (sortStrings l) l :=
  List.perm_insertionSort strLE l

theorem sortStrings_eq_of_perm {l₁ l₂ : List String} (h : List.Perm l₁ l₂) :
    sortStrings l₁ = sortStrings l₂ :=
  List.eq_of_perm_of_sorted
    ((sortStrings_perm l₁).trans (h.trans (sortStrings_perm l₂).symm))
    (sortStrings_sorted l₁) (sortStrings_sorted l₂)

theorem sortStrings_idem (l : List String) :
    sortStrings (sortStrings l) = sortStrings l :=
  List.eq_of_perm_of_sorted (sortStrings_perm (sortStrings l))
    (sortStrings_sorted _) (sortStrings_sorted l)

theorem sortStrings_length (l : List String) :
    (sortStrings l).length = l.length :=
  (sortStrings_perm l).length_eq

theorem sortStrings_nodup {l : List String} (h : l.Nodup) :
    (sortStrings l).Nodup :=
  ((sortStrings_perm l).nodup_iff).mpr h

theorem mem_sortStrings {l : List String} {x : String} :
    x ∈ sortStrings l ↔ x ∈ l :=
  (sortStrings_perm l).mem_iff

/-! ### Characterisation of `removeDuplicates` -/

/-- Whether position `i` of `l` holds a value that already occurred at an
earlier position of `l` or is in `seen`. -/
def seenAt (seen : List String) (l : List String) (i : Nat) : Bool :=
  (l.take i).contains (l.getD i "") || seen.contains (l.getD i "")

theorem seenAt_zero (seen : List String) (v : String) (rest : List String) :
    seenAt seen (v :: rest) 0 = seen.contains v := by
  simp [seenAt]

theorem seenAt_cons_succ (seen : List String) (v : String)
    (rest : List String) (i : Nat) :
    seenAt seen (v :: rest) (i + 1) = seenAt (v :: seen) rest i := by
  simp [seenAt, List.contains_cons, Bool.or_assoc, Bool.or_comm,
    Bool.or_left_comm]

theorem contains_eq_decide_mem (l : List String) (x : String) :
    l.contains x = decide (x ∈ l) :=
  List.elem_eq_mem x l

theorem removeDuplicatesAux_cons (seen : List String) (v : String)
    (rest : List String) :
    removeDuplicatesAux seen (v :: rest) =
      if v ∈ seen then
        ((removeDuplicatesAux (v :: seen) rest).1,
         v :: (removeDuplicatesAux (v :: seen) rest).2)
      else
        (v :: (removeDuplicatesAux (v :: seen) rest).1,
         (removeDuplicatesAux (v :: seen) rest).2) := by
  rw [removeDuplicatesAux, contains_eq_decide_mem]
  by_cases hv : v ∈ seen <;> simp [hv]

theorem removeDuplicatesAux_eq (seen l) :
    removeDuplicatesAux seen l =
      (((List.range l.length).filter
          (fun i => !(seenAt seen l i))).map (fun i => l.getD i ""),
       ((List.range l.length).filter
          (fun i => seenAt seen l i)).map (fun i => l.getD i "")) := by
  induction l generalizing seen with
  | nil => rfl
  | cons v rest ih =>
    rw [removeDuplicatesAux_cons, ih (v :: seen), List.length_cons,
      List.range_succ_eq_map, List.filter_cons, List.filter_cons]
    by_cases hv : v ∈ seen <;>
      simp [hv, seenAt_zero, contains_eq_decide_mem, List.filter_map,
        List.map_map, Function.comp_def, Nat.succ_eq_add_one,
        seenAt_cons_succ]

theorem removeDuplicatesAux_fst_sublist (seen l) :
    (removeDuplicatesAux seen l).1.Sublist l := by
  induction l generalizing seen with
  | nil => simp [removeDuplicatesAux]
  | cons v rest ih =>
    rw [removeDuplicatesAux_cons]
    by_cases hv : v ∈ seen
    · simpa [hv] using (ih (v :: seen)).cons v
    · simpa [hv] using (ih (v :: seen)).cons₂ v

theorem removeDuplicatesAux_snd_sublist (seen l) :
    (removeDuplicatesAux seen l).2.Sublist l := by
  induction l generalizing seen with
  | nil => simp [removeDuplicatesAux]
  | cons v rest ih =>
    rw [removeDuplicatesAux_cons]
    by_cases hv : v ∈ seen
    · simpa [hv] using (ih (v :: seen)).cons₂ v
    · simpa [hv] using (ih (v :: seen)).cons v

theorem removeDuplicatesAux_fst_count (seen l) (x : String) :
    (removeDuplicatesAux seen l).1.count x =
      if x ∈ seen then 0 else min (l.count x) 1 := by
  induction l generalizing seen with
  | nil => simp [removeDuplicatesAux]
  | cons v rest ih =>
    rw [removeDuplicatesAux_cons]
    by_cases hxv : x = v
    · subst hxv
      by_cases hv : x ∈ seen <;>
        simp [hv, ih (x :: seen), List.count_cons]
    · by_cases hv : v ∈ seen <;>
      by_cases hx : x ∈ seen <;>
        simp [hv, hx, hxv, ih (v :: seen), List.count_cons]

theorem removeDuplicatesAux_count_add (seen l) (x : String) :
    (removeDuplicatesAux seen l).1.count x +
      (removeDuplicatesAux seen l).2.count x = l.count x := by
  induction l generalizing seen with
  | nil => simp [removeDuplicatesAux]
  | cons v rest ih =>
    rw [removeDuplicatesAux_cons]
    by_cases hxv : x = v
    · subst hxv
      by_cases hv : x ∈ seen <;>
        · simp only [hv, if_true, if_false, List.count_cons, ite_true,
            ite_false, reduceIte]
          have := ih (x :: seen)
          simp [List.count_cons] at this ⊢
          omega
    · by_cases hv : v ∈ seen <;>
        · simp only [hv, if_true, if_false, List.count_cons, ite_true,
            ite_false, reduceIte]
          have := ih (v :: seen)
          simp [List.count_cons, hxv] at this ⊢
          omega

theorem removeDuplicates_fst_count (l : List String) (x : String) :
    (removeDuplicates l).1.count x = min (l.count x) 1 := by
  rw [removeDuplicates, removeDuplicatesAux_fst_count]
  simp

theorem removeDuplicates_count_add (l : List String) (x : String) :
    (removeDuplicates l).1.count x + (removeDuplicates l).2.count x =
      l.count x :=
  removeDuplicatesAux_count_add [] l x

theorem removeDuplicates_fst_nodup (l : List String) :
    (removeDuplicates l).1.Nodup := by
  rw [List.nodup_iff_count_le_one]
  intro x
  rw [removeDuplicates_fst_count]
  omega

theorem removeDuplicates_mem (l : List String) (x : String) :
    x ∈ (removeDuplicates l).1 ↔ x ∈ l := by
  rw [← List.count_pos_iff, ← List.count_pos_iff,
    removeDuplicates_fst_count]
  omega

/-! ### `setDifferenceList` and `modeSort` facts -/

theorem modeSort_perm (c : StateManagerConfig) (l : List String) :
    List.Perm (modeSort c l) l := by
  rw [modeSort]
  split
  · exact List.Perm.refl l
  · exact sortStrings_perm l

theorem modeSort_length (c : StateManagerConfig) (l : List String) :
    (modeSort c l).length = l.length :=
  (modeSort_perm c l).length_eq

theorem mem_modeSort {c : StateManagerConfig} {l : List String}
    {x : String} : x ∈ modeSort c l ↔ x ∈ l :=
  (modeSort_perm c l).mem_iff

theorem mem_setDifferenceList {a b : List String} {x : String} :
    x ∈ setDifferenceList a b ↔ x ∈ a ∧ x ∉ b := by
  rw [setDifferenceList, mem_sortStrings, List.mem_dedup, List.mem_filter]
  simp [contains_eq_decide_mem]

theorem setDifferenceList_nodup (a b : List String) :
    (setDifferenceList a b).Nodup := by
  rw [setDifferenceList]
  exact sortStrings_nodup (List.nodup_dedup _)

theorem setDifferenceList_sorted_strLE (a b : List String) :
    (setDifferenceList a b).Sorted strLE := by
  rw [setDifferenceList]
  exact sortStrings_sorted _

theorem setDifferenceList_sorted (a b : List String) :
    (setDifferenceList a b).Sorted (· ≤ ·) :=
  (setDifferenceList_sorted_strLE a b).imp fun h => (strLE_iff_le _ _).mp h

theorem setDifferenceList_congr {a a' b b' : List String}
    (ha : ∀ x, x ∈ a ↔ x ∈ a') (hb : ∀ x, x ∈ b ↔ x ∈ b') :
    setDifferenceList a b = setDifferenceList a' b' := by
  refine List.eq_of_perm_of_sorted ?_ (setDifferenceList_sorted_strLE a b)
    (setDifferenceList_sorted_strLE a' b')
  refine (List.perm_ext_iff_of_nodup (setDifferenceList_nodup a b)
    (setDifferenceList_nodup a' b')).mpr ?_
  intro x
  rw [mem_setDifferenceList, mem_setDifferenceList, ha x, hb x]

/-! ### Per-key views of `Diff` and `GenerateReport` -/

/-- The deduplicated (and, in unordered mode, sorted) received sequence
that the code compares against for a sent key. -/
def cleanReceivedFor (s : StateManager) (k : String) : List String :=
  modeSort s.config (dedupReceivedFor s k).1

/-- The lost list the report computes for a sent key with sequence `v`. -/
def lostFor (s : StateManager) (k : String) (v : List String) : List String :=
  setDifferenceList (modeSort s.config v) (cleanReceivedFor s k)

/-- The duplicates list the report computes for a sent key. -/
def dupFor (s : StateManager) (k : String) : List String :=
  modeSort s.config (dedupReceivedFor s k).2

theorem lostFor_eq_setDifferenceList (s : StateManager) (k : String)
    (v : List String) :
    lostFor s k v = setDifferenceList v (dedupReceivedFor s k).1 := by
  rw [lostFor, cleanReceivedFor]
  exact setDifferenceList_congr (fun x => mem_modeSort)
    (fun x => mem_modeSort)

theorem reportFold_charac (s : StateManager) (L : Ledger) (r : Report) :
    L.foldl (reportStep s) r =
      { r with
        LostEventsByPartitionKey := r.LostEventsByPartitionKey ++
          L.map (fun p => (p.1, lostFor s p.1 p.2)),
        LostCount := r.LostCount +
          (L.map (fun p => (lostFor s p.1 p.2).length)).sum,
        DuplicateEventsByPartitionKey := r.DuplicateEventsByPartitionKey ++
          L.map (fun p => (p.1, dupFor s p.1)),
        DuplicateCount := r.DuplicateCount +
          (L.map (fun p => (dupFor s p.1).length)).sum,
        ReceivedEventsByPartitionKey := r.ReceivedEventsByPartitionKey ++
          L.map (fun p => (p.1, modeSort s.config p.2)),
        ReceivedCount := r.ReceivedCount +
          (L.map (fun p => (modeSort s.config p.2).length)).sum } := by
  induction L generalizing r with
  | nil => simp
  | cons p L ih =>
    rw [List.foldl_cons, ih]
    simp [reportStep, lostFor, dupFor, cleanReceivedFor, Nat.add_assoc]

/-- The full characterisation of the report `GenerateReport` builds. -/
theorem generateReport_charac (s : StateManager) :
    (GenerateReport s).1 =
      { LostCount := (s.sent.map (fun p => (lostFor s p.1 p.2).length)).sum,
        Metrics := s.metrics,
        LostEventsByPartitionKey :=
          s.sent.map (fun p => (p.1, lostFor s p.1 p.2)),
        DuplicateEventsByPartitionKey :=
          s.sent.map (fun p => (p.1, dupFor s p.1)),
        ReceivedEventsByPartitionKey :=
          s.sent.map (fun p => (p.1, modeSort s.config p.2)),
        Terminated := s.terminated,
        DuplicateCount := (s.sent.map (fun p => (dupFor s p.1).length)).sum,
        ReceivedCount :=
          (s.sent.map (fun p => (modeSort s.config p.2).length)).sum } := by
  rw [GenerateReport]
  simp [reportFold_charac]

theorem cmpDiff_eq_empty_iff (want got : List String) :
    cmpDiff want got = "" ↔ want = got := by
  rw [cmpDiff]
  split
  · simp_all
  · constructor
    · intro h
      exact absurd h (by decide)
    · intro h
      simp_all

theorem diffFold_bool (s : StateManager) (L : Ledger) (b : Bool)
    (str : String) :
    (L.foldl (diffStep s) (b, str)).1 =
      (b || L.any (fun p =>
        !(cmpDiff (cleanReceivedFor s p.1) (modeSort s.config p.2) == ""))) := by
  induction L generalizing b str with
  | nil => simp
  | cons p L ih =>
    rw [List.foldl_cons, List.any_cons]
    rw [diffStep]
    rw [ih]
    simp [cleanReceivedFor, Bool.or_assoc]

theorem diffFold_str_le (s : StateManager) (L : Ledger) (b : Bool)
    (str : String) :
    str.length ≤ (L.foldl (diffStep s) (b, str)).2.length := by
  induction L generalizing b str with
  | nil => simp
  | cons p L ih =>
    rw [List.foldl_cons, diffStep]
    refine le_trans ?_ (ih _ _)
    simp only [String.length_append]
    omega

/-- `Diff` returns the empty string exactly when, for every sent key, the
(mode-normalised) deduplicated received sequence equals the
(mode-normalised) sent sequence. -/
theorem Diff_empty_iff (s : StateManager) :
    (Diff s).1 = "" ↔
      ∀ p ∈ s.sent, cleanReceivedFor s p.1 = modeSort s.config p.2 := by
  have h1 : (Diff s).1 =
      if (s.sent.foldl (diffStep s) (false, "Diff by partition key\n")).1
      then (s.sent.foldl (diffStep s) (false, "Diff by partition key\n")).2
      else "" := rfl
  have hany : (s.sent.foldl (diffStep s) (false, "Diff by partition key\n")).1
      = s.sent.any (fun p =>
        !(cmpDiff (cleanReceivedFor s p.1) (modeSort s.config p.2) == "")) := by
    rw [diffFold_bool, Bool.false_or]
  rw [h1]
  cases hb : (s.sent.foldl (diffStep s) (false, "Diff by partition key\n")).1 with
  | true =>
    simp only [eq_self_iff_true, if_true]
    have hlen := diffFold_str_le s s.sent false "Diff by partition key\n"
    rw [hb] at hany
    obtain ⟨p, hp, hpred⟩ := List.any_eq_true.mp hany.symm
    simp only [Bool.not_eq_true', beq_eq_false_iff_ne, ne_eq] at hpred
    constructor
    · intro he
      rw [he] at hlen
      exact absurd hlen (by decide)
    · intro hall
      exact absurd ((cmpDiff_eq_empty_iff _ _).mpr (hall p hp)) hpred
  | false =>
    simp only [Bool.false_eq_true, if_false]
    rw [hb] at hany
    have hall := List.any_eq_false.mp hany.symm
    constructor
    · intro _ p hp
      have hpred : cmpDiff (cleanReceivedFor s p.1) (modeSort s.config p.2)
          = "" := by simpa using hall p hp
      exact (cmpDiff_eq_empty_iff _ _).mp hpred
    · intro _
      trivial

/-! ### Lookup and mutation helper lemmas -/

theorem find_map_entry (g : String → List String → List String) (L : Ledger)
    (k : String) (v : List String)
    (h : L.find? (fun p => p.1 = k) = some (k, v)) :
    Ledger.find (L.map (fun p => (p.1, g p.1 p.2))) k = some (g k v) := by
  induction L with
  | nil => simp at h
  | cons p L ih =>
    by_cases hk : p.1 = k
    · rw [List.find?_cons_of_pos _ (by simpa using hk)] at h
      obtain ⟨h1, h2⟩ : p.1 = k ∧ p.2 = v := by
        have := Option.some.inj h
        exact ⟨congrArg Prod.fst this, congrArg Prod.snd this⟩
      rw [List.map_cons, Ledger.find,
        List.find?_cons_of_pos _ (by simpa using hk)]
      simp [h1, h2]
    · rw [List.find?_cons_of_neg _ (by simpa using hk)] at h
      rw [List.map_cons, Ledger.find,
        List.find?_cons_of_neg _ (by simpa using hk)]
      exact ih h

theorem find_map_value (l : Ledger) (k : String)
    (f : List String → List String) :
    Ledger.find (l.map (fun p => (p.1, f p.2))) k =
      (Ledger.find l k).map f := by
  induction l with
  | nil => rfl
  | cons p l ih =>
    rw [List.map_cons, Ledger.find, Ledger.find]
    by_cases hk : p.1 = k
    · rw [List.find?_cons_of_pos _ (by simpa using hk),
        List.find?_cons_of_pos _ (by simpa using hk)]
      rfl
    · rw [List.find?_cons_of_neg _ (by simpa using hk),
        List.find?_cons_of_neg _ (by simpa using hk)]
      exact ih

theorem find_map_append_entry (l : Ledger) (k k' : String) (id : String)
    (h : k' ≠ k) :
    Ledger.find
        (l.map (fun p => if p.1 = k then (p.1, p.2 ++ [id]) else p)) k' =
      Ledger.find l k' := by
  induction l with
  | nil => rfl
  | cons p l ih =>
    rw [List.map_cons, Ledger.find, Ledger.find]
    by_cases hq : p.1 = k'
    · have hpk : ¬ p.1 = k := fun hh => h (hq.symm.trans hh)
      rw [if_neg hpk, List.find?_cons_of_pos _ (by simpa using hq),
        List.find?_cons_of_pos _ (by simpa using hq)]
    · by_cases hpk : p.1 = k
      · rw [if_pos hpk, List.find?_cons_of_neg _ (by simpa using hq),
          List.find?_cons_of_neg _ (by simpa using hq)]
        exact ih
      · rw [if_neg hpk, List.find?_cons_of_neg _ (by simpa using hq),
          List.find?_cons_of_neg _ (by simpa using hq)]
        exact ih

theorem find_appendAt_of_ne (l : Ledger) (k k' : String) (id : String)
    (h : k' ≠ k) :
    Ledger.find (l.appendAt k id) k' = Ledger.find l k' := by
  rw [Ledger.appendAt]
  split
  · exact find_map_append_entry l k k' id h
  · rw [Ledger.find, Ledger.find, List.find?_append]
    have hnone : List.find? (fun p => p.1 = k') [(k, [id])] = none := by
      rw [List.find?_cons_of_neg _ (by simpa using fun hh => h hh.symm)]
      rfl
    rw [hnone, Option.or_none]

theorem receivedCount_charac (s : StateManager) :
    ReceivedCount s = (s.received.map (fun p => p.2.length)).sum := by
  rw [ReceivedCount]
  have : ∀ (L : Ledger) (n : Nat),
      L.foldl (fun count p => count + p.2.length) n =
        n + (L.map (fun p => p.2.length)).sum := by
    intro L
    induction L with
    | nil => intro n; simp
    | cons p L ih =>
      intro n
      rw [List.foldl_cons, ih]
      simp [Nat.add_assoc]
  rw [this]
  simp

theorem map_appendAt_of_not_mem {l : Ledger} {k : String}
    (hk : ∀ q ∈ l, q.1 ≠ k) (id : String) :
    l.map (fun p => if p.1 = k then (p.1, p.2 ++ [id]) else p) = l := by
  rw [List.map_congr_left (g := fun p => p)]
  · exact List.map_id l
  · intro q hq
    simp [hk q hq]

theorem sum_len_appendAt (l : Ledger) (k : String) (id : String)
    (hnd : (l.map Prod.fst).Nodup) :
    ((l.appendAt k id).map (fun p => p.2.length)).sum =
      (l.map (fun p => p.2.length)).sum + 1 := by
  rw [Ledger.appendAt]
  split
  · rename_i hkey
    induction l with
    | nil => simp [Ledger.hasKey] at hkey
    | cons p l ih =>
      by_cases hp : p.1 = k
      · have hrest : ∀ q ∈ l, q.1 ≠ k := by
          intro q hq hqk
          rw [List.map_cons, List.nodup_cons] at hnd
          exact hnd.1 (hp ▸ hqk ▸ List.mem_map_of_mem Prod.fst hq)
        rw [List.map_cons]
        simp only [hp, if_true, reduceIte]
        rw [map_appendAt_of_not_mem hrest id]
        simp [Nat.add_assoc, Nat.add_comm, Nat.add_left_comm]
      · rw [List.map_cons] at hnd ⊢
        simp only [hp, if_false, reduceIte]
        have hkey' : Ledger.hasKey l k = true := by
          rw [Ledger.hasKey] at hkey ⊢
          rcases List.any_eq_true.mp hkey with ⟨q, hq, hqk⟩
          rcases List.mem_cons.mp hq with rfl | hq'
          · exact absurd (of_decide_eq_true hqk) hp
          · exact List.any_eq_true.mpr ⟨q, hq', hqk⟩
        have := ih (List.Nodup.of_cons hnd) hkey'
        simp only [List.map_cons, List.sum_cons]
        rw [this]
        omega
  · simp

theorem diffStep_congr {s s' : StateManager} (hc : s'.config = s.config)
    (hf : ∀ p ∈ s.sent, Ledger.find s'.received p.1 =
      Ledger.find s.received p.1)
    (p : String × List String) (hp : p ∈ s.sent) (acc : Bool × String) :
    diffStep s' acc p = diffStep s acc p := by
  rw [diffStep, diffStep, dedupReceivedFor, dedupReceivedFor, hf p hp, hc]

theorem reportStep_congr {s s' : StateManager} (hc : s'.config = s.config)
    (hf : ∀ p ∈ s.sent, Ledger.find s'.received p.1 =
      Ledger.find s.received p.1)
    (p : String × List String) (hp : p ∈ s.sent) (r : Report) :
    reportStep s' r p = reportStep s r p := by
  rw [reportStep, reportStep, dedupReceivedFor, dedupReceivedFor, hf p hp, hc]

/-! ### Spec-side definitions for the deduplication contract -/

/-- Spec wording: the ID at each position of `l` whose value does not
occur at any earlier position, in position order. -/
def firstOccurrencesSpec (l : List String) : List String :=
  ((List.range l.length).filter
    (fun i => !((l.take i).contains (l.getD i "")))).map (fun i => l.getD i "")

/-- Spec wording: the ID at each position of `l` whose value does occur
at an earlier position (a repeat occurrence), in position order. -/
def repeatOccurrencesSpec (l : List String) : List String :=
  ((List.range l.length).filter
    (fun i => (l.take i).contains (l.getD i ""))).map (fun i => l.getD i "")

theorem removeDuplicates_eq_specs (l : List String) :
    removeDuplicates l = (firstOccurrencesSpec l, repeatOccurrencesSpec l) := by
  rw [removeDuplicates, removeDuplicatesAux_eq, firstOccurrencesSpec,
    repeatOccurrencesSpec]
  have h : ∀ i, seenAt [] l i = (l.take i).contains (l.getD i "") := by
    intro i
    simp [seenAt]
  simp only [h]

/-! ### Report field projections -/

theorem generateReport_Terminated (s : StateManager) :
    (GenerateReport s).1.Terminated = s.terminated := by
  rw [generateReport_charac]

theorem generateReport_Metrics (s : StateManager) :
    (GenerateReport s).1.Metrics = s.metrics := by
  rw [generateReport_charac]

/-! ### Operation-sequence lemmas -/

theorem applyOp_terminated_true {s s' : StateManager} {op : Op}
    (h : applyOp s op = some s') (ht : s.terminated = true) :
    s'.terminated = true := by
  cases op with
  | sent e =>
    rw [applyOp, recordSent] at h
    obtain ⟨l, _, rfl⟩ := Option.map_eq_some'.mp h
    exact ht
  | recv e =>
    rw [applyOp, recordReceived] at h
    obtain ⟨l, _, rfl⟩ := Option.map_eq_some'.mp h
    exact ht
  | diff =>
    rw [applyOp] at h
    rw [← Option.some.inj h]
    exact ht
  | report =>
    rw [applyOp] at h
    rw [← Option.some.inj h]
    exact ht
  | markTerminated m =>
    rw [applyOp] at h
    rw [← Option.some.inj h]
    rfl

theorem applyOp_insertion_metrics {s s' : StateManager} {op : Op}
    (h : applyOp s op = some s') (hins : op.isInsertion = true) :
    s'.terminated = s.terminated ∧ s'.metrics = s.metrics := by
  cases op with
  | sent e =>
    rw [applyOp, recordSent] at h
    obtain ⟨l, _, rfl⟩ := Option.map_eq_some'.mp h
    exact ⟨rfl, rfl⟩
  | recv e =>
    rw [applyOp, recordReceived] at h
    obtain ⟨l, _, rfl⟩ := Option.map_eq_some'.mp h
    exact ⟨rfl, rfl⟩
  | diff => cases hins
  | report => cases hins
  | markTerminated m => cases hins

theorem applyOps_terminated {ops : List Op} :
    ∀ {s s' : StateManager}, applyOps s ops = some s' →
      s.terminated = true →
      s'.terminated = true ∧
        (ops.all Op.isInsertion = true → s'.metrics = s.metrics) := by
  induction ops with
  | nil =>
    intro s s' h ht
    rw [applyOps] at h
    rw [← Option.some.inj h]
    exact ⟨ht, fun _ => rfl⟩
  | cons op ops ih =>
    intro s s' h ht
    rw [applyOps] at h
    cases hop : applyOp s op with
    | none => rw [hop] at h; cases h
    | some s₁ =>
      rw [hop] at h
      obtain ⟨h1, h2⟩ := ih h (applyOp_terminated_true hop ht)
      refine ⟨h1, fun hins => ?_⟩
      rw [List.all_cons] at hins
      obtain ⟨ha, hb⟩ := Bool.and_eq_true_iff.mp hins
      rw [h2 hb, (applyOp_insertion_metrics hop ha).2]

/-! ### Claim theorems -/

/-- Claim C2: `removeDuplicates` returns the first occurrence of each
distinct ID (in original relative order, none repeated) as its first
component and every subsequent (repeat) occurrence (in original
relative order) as its second component; an ID occurring N times
contributes 1 entry to the first and N−1 to the second, and
`["a","a","b","a"]` yields `(["a","b"], ["a","a"])`. -/
theorem claim_C2_removeDuplicates (l : List String) :
    (removeDuplicates l).1 = firstOccurrencesSpec l ∧
    (removeDuplicates l).2 = repeatOccurrencesSpec l ∧
    (removeDuplicates l).1.Nodup ∧
    (removeDuplicates l).1.Sublist l ∧
    (removeDuplicates l).2.Sublist l ∧
    (∀ x, x ∈ l → (removeDuplicates l).1.count x = 1) ∧
    (∀ x, (removeDuplicates l).1.count x + (removeDuplicates l).2.count x =
      l.count x) ∧
    removeDuplicates ["a", "a", "b", "a"] = (["a", "b"], ["a", "a"]) := by
  refine ⟨congrArg Prod.fst (removeDuplicates_eq_specs l),
    congrArg Prod.snd (removeDuplicates_eq_specs l),
    removeDuplicates_fst_nodup l,
    removeDuplicatesAux_fst_sublist [] l,
    removeDuplicatesAux_snd_sublist [] l,
    ?_, removeDuplicates_count_add l, by decide⟩
  intro x hx
  rw [removeDuplicates_fst_count]
  have := List.count_pos_iff.mpr hx
  omega

/-- Witness for claim C2 at the concrete input `["a","a","b","a"]`. -/
theorem claim_C2_removeDuplicates_witness :
    (removeDuplicates ["a", "a", "b", "a"]).1.count "a" = 1 ∧
    (removeDuplicates ["a", "a", "b", "a"]).1.count "a" +
      (removeDuplicates ["a", "a", "b", "a"]).2.count "a" =
      (["a", "a", "b", "a"] : List String).count "a" :=
  ⟨(claim_C2_removeDuplicates ["a", "a", "b", "a"]).2.2.2.2.2.1 "a"
      (by decide),
   (claim_C2_removeDuplicates ["a", "a", "b", "a"]).2.2.2.2.2.2.1 "a"⟩

/-- Claim C5: the partition key used by `insert` is the sentinel
`"unknown"` whenever ordered mode is off (regardless of attributes) and
when ordered mode is on but no `partitionkey` attribute exists; with the
attribute present and string-typed the key is that string; with the
attribute present but not string-typed the insertion panics (`none`),
recording under no key. -/
theorem claim_C5_insert_partition_key (store : Ledger) (id : String)
    (exts : List (String × AttrValue)) :
    (insert ⟨id, exts⟩ store ⟨false⟩ =
        some (store.appendAt unknownPartitionKey id)) ∧
    (exts.find? (fun p => p.1 = "partitionkey") = none →
      insert ⟨id, exts⟩ store ⟨true⟩ =
        some (store.appendAt unknownPartitionKey id)) ∧
    (∀ (a pk : String),
      exts.find? (fun p => p.1 = "partitionkey") =
          some (a, AttrValue.str pk) →
      insert ⟨id, exts⟩ store ⟨true⟩ = some (store.appendAt pk id)) ∧
    (∀ a : String,
      exts.find? (fun p => p.1 = "partitionkey") =
          some (a, AttrValue.other) →
      insert ⟨id, exts⟩ store ⟨true⟩ = none) := by
  refine ⟨rfl, ?_, ?_, ?_⟩
  · intro h
    rw [insert, partitionKeyOf]
    simp [h]
  · intro a pk h
    rw [insert, partitionKeyOf]
    simp [h]
  · intro a h
    rw [insert, partitionKeyOf]
    simp [h]

/-- Witness for claim C5, exercising all four partition-key cases. -/
theorem claim_C5_insert_partition_key_witness :
    insert ⟨"e1", [("partitionkey", AttrValue.other)]⟩ [] ⟨false⟩ =
        some [("unknown", ["e1"])] ∧
    insert ⟨"e1", [("foo", AttrValue.str "p9")]⟩ [] ⟨true⟩ =
        some [("unknown", ["e1"])] ∧
    insert ⟨"e1", [("partitionkey", AttrValue.str "p1")]⟩ [] ⟨true⟩ =
        some [("p1", ["e1"])] ∧
    insert ⟨"e1", [("partitionkey", AttrValue.other)]⟩ [] ⟨true⟩ = none := by
  refine ⟨?_, ?_, ?_, ?_⟩
  · exact (claim_C5_insert_partition_key [] "e1"
      [("partitionkey", AttrValue.other)]).1
  · exact (claim_C5_insert_partition_key [] "e1"
      [("foo", AttrValue.str "p9")]).2.1 (by decide)
  · exact (claim_C5_insert_partition_key [] "e1"
      [("partitionkey", AttrValue.str "p1")]).2.2.1 "partitionkey" "p1"
      (by decide)
  · exact (claim_C5_insert_partition_key [] "e1"
      [("partitionkey", AttrValue.other)]).2.2.2 "partitionkey" (by decide)

/-- Claim C6: after `Terminated(m)`, every state reachable by further
operations is still terminated (one-way transition), every generated
report has `Terminated = true`, and as long as only insertions occur the
metrics stay `m` and appear in every report. -/
theorem claim_C6_termination (s : StateManager) (m : Metrics)
    (ops : List Op) (s' : StateManager)
    (h : applyOps (Terminated s m) ops = some s') :
    s'.terminated = true ∧
    (GenerateReport s').1.Terminated = true ∧
    (ops.all Op.isInsertion = true →
      s'.metrics = m ∧ (GenerateReport s').1.Metrics = m) := by
  obtain ⟨h1, h2⟩ := applyOps_terminated h rfl
  refine ⟨h1, ?_, fun hins => ⟨(h2 hins).trans rfl, ?_⟩⟩
  · rw [generateReport_Terminated, h1]
  · rw [generateReport_Metrics, h2 hins]
    exact rfl

/-- The state reached in the C6 witness run. -/
def sWitC6 : StateManager :=
  { received := [("unknown", ["e1"])], sent := [("unknown", ["e1"])],
    config := ⟨false⟩, terminated := true, metrics := ⟨7⟩ }

/-- Witness for claim C6: a concrete run with insertions after the
termination call. -/
theorem claim_C6_termination_witness :
    sWitC6.terminated = true ∧
    (GenerateReport sWitC6).1.Terminated = true ∧
    sWitC6.metrics = ⟨7⟩ ∧
    (GenerateReport sWitC6).1.Metrics = ⟨7⟩ := by
  have h := claim_C6_termination (NewStateManager ⟨false⟩) ⟨7⟩
    [Op.sent ⟨"e1", []⟩, Op.recv ⟨"e1", []⟩] sWitC6 (by decide)
  exact ⟨h.1, h.2.1, (h.2.2 (by decide)).1, (h.2.2 (by decide)).2⟩

/-- The ledger state of the spec's received-count example: sent
`{p1:["e1"]}`, received `{p1:["e1","e1"]}`, unordered mode. -/
def sC1 : StateManager :=
  { received := [("p1", ["e1", "e1"])], sent := [("p1", ["e1"])],
    config := ⟨false⟩, terminated := false, metrics := ⟨0⟩ }

/-- Claim C1 (divergence): because the inner `v` of
`if v, ok := s.received[k]` is out of scope at
`r.ReceivedEventsByPartitionKey[k] = v`, the report's received-facing
fields are computed from the *sent* ledger: `ReceivedCount` totals the
sent sequences, and at the spec's example it is 1 (not 2) with
`ReceivedEventsByPartitionKey` holding the sent sequence, while the
`ReceivedCount()` method on the same state returns 2. -/
theorem claim_C1_received_fields_from_sent :
    (∀ s : StateManager, (GenerateReport s).1.ReceivedCount =
      (s.sent.map (fun p => p.2.length)).sum) ∧
    (∀ s : StateManager, (GenerateReport s).1.ReceivedEventsByPartitionKey =
      s.sent.map (fun p => (p.1, modeSort s.config p.2))) ∧
    (GenerateReport sC1).1.ReceivedCount = 1 ∧
    (GenerateReport sC1).1.ReceivedEventsByPartitionKey = [("p1", ["e1"])] ∧
    (GenerateReport sC1).1.DuplicateCount = 1 ∧
    (GenerateReport sC1).1.LostCount = 0 ∧
    (GenerateReport sC1).1.LostEventsByPartitionKey = [("p1", [])] ∧
    ReceivedCount sC1 = 2 := by
  refine ⟨?_, ?_, by decide, by decide, by decide, by decide, by decide,
    by decide⟩
  · intro s
    rw [generateReport_charac]
    exact congrArg List.sum
      (List.map_congr_left (fun p _ => modeSort_length s.config p.2))
  · intro s
    rw [generateReport_charac]

/-- The ledger state of the spec's lost-computation example: sent
`{p1:["e1","e2","e3"]}`, received `{p1:["e1","e3"]}`, unordered mode. -/
def sC4 : StateManager :=
  { received := [("p1", ["e1", "e3"])], sent := [("p1", ["e1", "e2", "e3"])],
    config := ⟨false⟩, terminated := false, metrics := ⟨0⟩ }

/-- Claim C4: for a key of the sent ledger, the report's lost list is the
set difference of the sent IDs minus the deduplicated received IDs,
rendered as a sequence, and `LostCount` sums the sizes of these sets
across the sent keys. -/
theorem claim_C4_lost_events (s : StateManager) (k : String)
    (v : List String)
    (h : s.sent.find? (fun p => p.1 = k) = some (k, v)) :
    Ledger.find (GenerateReport s).1.LostEventsByPartitionKey k =
      some (setDifferenceList v (dedupReceivedFor s k).1) ∧
    (∀ x, x ∈ setDifferenceList v (dedupReceivedFor s k).1 ↔
      x ∈ v ∧ x ∉ (dedupReceivedFor s k).1) ∧
    (GenerateReport s).1.LostCount =
      (s.sent.map (fun p =>
        (setDifferenceList p.2 (dedupReceivedFor s p.1).1).length)).sum := by
  refine ⟨?_, fun x => mem_setDifferenceList, ?_⟩
  · rw [generateReport_charac]
    have hfind := find_map_entry (fun k' v' => lostFor s k' v') s.sent k v h
    rw [hfind]
    simp only [lostFor_eq_setDifferenceList]
  · rw [generateReport_charac]
    refine congrArg List.sum (List.map_congr_left ?_)
    intro p _
    rw [lostFor_eq_setDifferenceList]

/-- Witness for claim C4 at the spec's lost-computation example. -/
theorem claim_C4_lost_events_witness :
    Ledger.find (GenerateReport sC4).1.LostEventsByPartitionKey "p1" =
      some ["e2"] ∧
    (GenerateReport sC4).1.LostCount = 1 := by
  have h := claim_C4_lost_events sC4 "p1" ["e1", "e2", "e3"] (by decide)
  constructor
  · rw [h.1]
    decide
  · rw [h.2.2]
    decide

/-- An ordered-mode state whose sent insertion order is not sorted, used
to witness claim C10. -/
def sC10 : StateManager :=
  { received := [("p", ["b"])], sent := [("p", ["b", "a", "c"])],
    config := ⟨true⟩, terminated := false, metrics := ⟨0⟩ }

/-- Claim C10: every per-key lost list the report produces is sorted
ascending lexicographically and free of repeated IDs, in ordered and
unordered mode alike. -/
theorem claim_C10_lost_sorted_nodup (s : StateManager)
    (p : String × List String)
    (h : p ∈ (GenerateReport s).1.LostEventsByPartitionKey) :
    p.2.Sorted (· ≤ ·) ∧ p.2.Nodup := by
  rw [generateReport_charac] at h
  simp only [List.mem_map] at h
  obtain ⟨q, _, rfl⟩ := h
  exact ⟨setDifferenceList_sorted _ _, setDifferenceList_nodup _ _⟩

/-- Witness for claim C10: in ordered mode with sent insertion order
`["b","a","c"]`, the lost list comes out sorted as `["a","c"]`. -/
theorem claim_C10_lost_sorted_nodup_witness :
    (("p", ["a", "c"]) : String × List String).2.Sorted (· ≤ ·) ∧
    (("p", ["a", "c"]) : String × List String).2.Nodup :=
  claim_C10_lost_sorted_nodup sC10 ("p", ["a", "c"]) (by decide)

/-- An unordered-mode state whose sent sequence is not sorted. -/
def sC7 : StateManager :=
  { received := [], sent := [("p", ["b", "a"])], config := ⟨false⟩,
    terminated := false, metrics := ⟨0⟩ }

/-- An ordered-mode state with the same ledger contents. -/
def sC7o : StateManager :=
  { received := [], sent := [("p", ["b", "a"])], config := ⟨true⟩,
    terminated := false, metrics := ⟨0⟩ }

/-- Counterexample to claim C7 as stated: in unordered mode
`sort.Strings(sent)` aliases the map's slice, so `GenerateReport`
reorders the per-partition sent sequence `["b","a"]` to `["a","b"]`
in place. -/
theorem claim_C7_counterexample :
    (GenerateReport sC7).2.sent = [("p", ["a", "b"])] ∧
    sC7.sent = [("p", ["b", "a"])] ∧
    (GenerateReport sC7).2.sent ≠ sC7.sent := by decide

/-- Claim C7 (amended): `GenerateReport` never mutates the received
ledger, configuration, terminated flag or metrics; in ordered mode it
leaves the whole state untouched; in unordered mode it replaces each
per-partition sent sequence by its sorted permutation (same multiset),
after which a further call changes nothing. -/
theorem claim_C7_generateReport_frame (s : StateManager) :
    (GenerateReport s).2.received = s.received ∧
    (GenerateReport s).2.config = s.config ∧
    (GenerateReport s).2.terminated = s.terminated ∧
    (GenerateReport s).2.metrics = s.metrics ∧
    (s.config.Ordered = true → (GenerateReport s).2 = s) ∧
    (s.config.Ordered = false →
      (GenerateReport s).2.sent =
        s.sent.map (fun p => (p.1, sortStrings p.2))) ∧
    (∀ p ∈ (GenerateReport s).2.sent, ∃ q ∈ s.sent,
      p.1 = q.1 ∧ List.Perm p.2 q.2) ∧
    (GenerateReport (GenerateReport s).2).2 = (GenerateReport s).2 := by
  have hpost : (GenerateReport s).2 = { s with sent := sentAfterSort s } :=
    rfl
  refine ⟨rfl, rfl, rfl, rfl, ?_, ?_, ?_, ?_⟩
  · intro ho
    rw [hpost, sentAfterSort, if_pos ho]
  · intro ho
    rw [hpost, sentAfterSort, if_neg (by rw [ho]; exact Bool.false_ne_true)]
  · intro p hp
    rw [hpost] at hp
    rw [sentAfterSort] at hp
    split at hp
    · exact ⟨p, hp, rfl, List.Perm.refl p.2⟩
    · obtain ⟨q, hq, rfl⟩ := List.mem_map.mp hp
      exact ⟨q, hq, rfl, sortStrings_perm q.2⟩
  · rw [hpost]
    have h2 : (GenerateReport { s with sent := sentAfterSort s }).2 =
        { s with sent := sentAfterSort { s with sent := sentAfterSort s } } :=
      rfl
    rw [h2]
    have h3 : sentAfterSort { s with sent := sentAfterSort s } =
        sentAfterSort s := by
      unfold sentAfterSort
      cases hc : s.config.Ordered <;>
        simp [hc, List.map_map, Function.comp, sortStrings_idem]
    rw [h3]

/-- Witness for claim C7: the ordered-mode state is untouched; the
unordered one has its sent sequence sorted, a permutation of the
original. -/
theorem claim_C7_generateReport_frame_witness :
    (GenerateReport sC7o).2 = sC7o ∧
    (GenerateReport sC7).2.sent =
      sC7.sent.map (fun p => (p.1, sortStrings p.2)) ∧
    (∃ q ∈ sC7.sent, ("p", ["a", "b"]).1 = q.1 ∧
      List.Perm (("p", ["a", "b"]) : String × List String).2 q.2) :=
  ⟨(claim_C7_generateReport_frame sC7o).2.2.2.2.1 rfl,
   (claim_C7_generateReport_frame sC7).2.2.2.2.2.1 rfl,
   (claim_C7_generateReport_frame sC7).2.2.2.2.2.2.1 ("p", ["a", "b"])
     (by decide)⟩

/-- A manager state holding one partition with sent `["e1","e2"]` and
received `["e2","e1"]` (equal multisets, different order). -/
def singlePartState (k : String) (c : Bool) (t : Bool) (m : Metrics) :
    StateManager :=
  { received := [(k, ["e2", "e1"])], sent := [(k, ["e1", "e2"])],
    config := ⟨c⟩, terminated := t, metrics := m }

theorem find_singleton_self (k : String) (w : List String) :
    Ledger.find [(k, w)] k = some w := by
  rw [Ledger.find, List.find?_cons_of_pos _ (by simp)]
  rfl

/-- Claim C3: `Diff` is empty exactly when, per sent key, the
deduplicated received sequence matches the sent sequence — as-is in
ordered mode, after sorting both in unordered mode; with sent
`["e1","e2"]` and received `["e2","e1"]` the diff is non-empty in
ordered mode and empty in unordered mode. -/
theorem claim_C3_diff_order_mode :
    (∀ s : StateManager, ((Diff s).1 = "" ↔
      ∀ p ∈ s.sent,
        if s.config.Ordered then (dedupReceivedFor s p.1).1 = p.2
        else sortStrings (dedupReceivedFor s p.1).1 = sortStrings p.2)) ∧
    (∀ (k : String) (t : Bool) (m : Metrics),
      0 < (Diff (singlePartState k true t m)).1.length) ∧
    (∀ (k : String) (t : Bool) (m : Metrics),
      (Diff (singlePartState k false t m)).1 = "") := by
  have key : ∀ (s : StateManager) (p : String × List String),
      (cleanReceivedFor s p.1 = modeSort s.config p.2) ↔
      (if s.config.Ordered then (dedupReceivedFor s p.1).1 = p.2
       else sortStrings (dedupReceivedFor s p.1).1 = sortStrings p.2) := by
    intro s p
    rw [cleanReceivedFor, modeSort, modeSort]
    cases hc : s.config.Ordered <;> simp
  refine ⟨?_, ?_, ?_⟩
  · intro s
    rw [Diff_empty_iff]
    exact forall₂_congr fun p hp => key s p
  · intro k t m
    have hb : ((singlePartState k true t m).sent.foldl
        (diffStep (singlePartState k true t m))
        (false, "Diff by partition key\n")).1 = true := by
      rw [diffFold_bool, Bool.false_or]
      refine List.any_eq_true.mpr ⟨(k, ["e1", "e2"]), ?_, ?_⟩
      · exact List.mem_singleton.mpr rfl
      · rw [cleanReceivedFor, dedupReceivedFor,
          show (singlePartState k true t m).received =
            [(k, ["e2", "e1"])] from rfl,
          find_singleton_self,
          show (singlePartState k true t m).config = ⟨true⟩ from rfl]
        dsimp only
        decide
    have hlen := diffFold_str_le (singlePartState k true t m)
      (singlePartState k true t m).sent false "Diff by partition key\n"
    have h1 : (Diff (singlePartState k true t m)).1 =
        ((singlePartState k true t m).sent.foldl
          (diffStep (singlePartState k true t m))
          (false, "Diff by partition key\n")).2 := by
      rw [show (Diff (singlePartState k true t m)).1 =
        if ((singlePartState k true t m).sent.foldl
            (diffStep (singlePartState k true t m))
            (false, "Diff by partition key\n")).1
        then ((singlePartState k true t m).sent.foldl
            (diffStep (singlePartState k true t m))
            (false, "Diff by partition key\n")).2
        else "" from rfl, hb]
      simp
    rw [h1]
    have h22 : ("Diff by partition key\n" : String).length = 22 := rfl
    omega
  · intro k t m
    rw [Diff_empty_iff]
    intro p hp
    obtain rfl := List.mem_singleton.mp hp
    rw [cleanReceivedFor, dedupReceivedFor,
      show (singlePartState k false t m).received =
        [(k, ["e2", "e1"])] from rfl,
      find_singleton_self,
      show (singlePartState k false t m).config = ⟨false⟩ from rfl]
    dsimp only
    decide

/-- Witness for claim C3 at the concrete partition key `"p1"`. -/
theorem claim_C3_diff_order_mode_witness :
    0 < (Diff (singlePartState "p1" true false ⟨0⟩)).1.length ∧
    (Diff (singlePartState "p1" false false ⟨0⟩)).1 = "" ∧
    (Diff (singlePartState "p1" false true ⟨5⟩)).1 = "" :=
  ⟨claim_C3_diff_order_mode.2.1 "p1" false ⟨0⟩,
   claim_C3_diff_order_mode.2.2 "p1" false ⟨0⟩,
   (claim_C3_diff_order_mode.1 (singlePartState "p1" false true ⟨5⟩)).mpr
     (by decide)⟩

/-- A state with one received-only partition key and nothing sent. -/
def sC8 : StateManager :=
  { received := [("q", ["x"])], sent := [], config := ⟨false⟩,
    terminated := false, metrics := ⟨0⟩ }

/-- Counterexample to claim C8 as stated: an event recorded under a
received-only key is *not* counted by the Report's received counts
(which, due to the shadowing slip, are computed from the sent ledger);
it is counted by the `ReceivedCount()` method instead. -/
theorem claim_C8_counterexample :
    (GenerateReport sC8).1.ReceivedCount = 0 ∧
    (GenerateReport sC8).1.ReceivedEventsByPartitionKey = [] ∧
    ReceivedCount sC8 = 1 := by decide

/-- Claim C8 (amended): recording an event under a partition key absent
from the sent ledger changes neither `Diff` (which iterates only the
sent keys) nor the generated `Report`; the event is counted by the
`ReceivedCount()` method. -/
theorem claim_C8_received_only_keys (s : StateManager) (k : String)
    (id : String) (hk : ∀ p ∈ s.sent, p.1 ≠ k)
    (hnd : (s.received.map Prod.fst).Nodup) :
    (Diff { s with received := s.received.appendAt k id }).1 =
      (Diff s).1 ∧
    (GenerateReport { s with received := s.received.appendAt k id }).1 =
      (GenerateReport s).1 ∧
    ReceivedCount { s with received := s.received.appendAt k id } =
      ReceivedCount s + 1 := by
  have hf : ∀ p ∈ s.sent,
      Ledger.find ({ s with received := s.received.appendAt k id }).received
          p.1 =
        Ledger.find s.received p.1 := fun p hp =>
    find_appendAt_of_ne s.received k p.1 id (hk p hp)
  have hcfg : ({ s with received := s.received.appendAt k id }).config =
      s.config := rfl
  refine ⟨?_, ?_, ?_⟩
  · have hfold : s.sent.foldl
        (diffStep { s with received := s.received.appendAt k id })
        (false, "Diff by partition key\n") =
        s.sent.foldl (diffStep s) (false, "Diff by partition key\n") :=
      List.foldl_ext _ _ _
        (fun acc p hp => diffStep_congr hcfg hf p hp acc)
    calc (Diff { s with received := s.received.appendAt k id }).1
        = if (s.sent.foldl
              (diffStep { s with received := s.received.appendAt k id })
              (false, "Diff by partition key\n")).1
          then (s.sent.foldl
              (diffStep { s with received := s.received.appendAt k id })
              (false, "Diff by partition key\n")).2
          else "" := rfl
      _ = if (s.sent.foldl (diffStep s)
              (false, "Diff by partition key\n")).1
          then (s.sent.foldl (diffStep s)
              (false, "Diff by partition key\n")).2
          else "" := by rw [hfold]
      _ = (Diff s).1 := rfl
  · have hfold : ∀ r0 : Report,
        s.sent.foldl
          (reportStep { s with received := s.received.appendAt k id }) r0 =
        s.sent.foldl (reportStep s) r0 := fun r0 =>
      List.foldl_ext _ _ _
        (fun r p hp => reportStep_congr hcfg hf p hp r)
    exact hfold _
  · rw [receivedCount_charac, receivedCount_charac]
    exact sum_len_appendAt s.received k id hnd

/-- The base state for the C8 witness. -/
def sW8 : StateManager :=
  { received := [("p1", ["e1"])], sent := [("p1", ["e1"])],
    config := ⟨false⟩, terminated := false, metrics := ⟨0⟩ }

/-- Witness for claim C8: appending `"x"` under the never-sent key `"q"`
leaves `Diff` and the report unchanged and bumps `ReceivedCount()`. -/
theorem claim_C8_received_only_keys_witness :
    (Diff { sW8 with received := sW8.received.appendAt "q" "x" }).1 =
      (Diff sW8).1 ∧
    (GenerateReport
        { sW8 with received := sW8.received.appendAt "q" "x" }).1 =
      (GenerateReport sW8).1 ∧
    ReceivedCount { sW8 with received := sW8.received.appendAt "q" "x" } =
      ReceivedCount sW8 + 1 :=
  claim_C8_received_only_keys sW8 "q" "x" (by decide) (by decide)

end Sacura
